import Mathlib

set_option maxRecDepth 100000

/-!
Verification of the BYOK SDK's SSE streaming decoder (`src/streaming.ts`,
`parseSSEStream`) and HTTP error classifier (`src/errors.ts`, `throwForStatus`)
against their natural-language specification.

The embedding is executable: JavaScript dynamic values reachable from
`JSON.parse` are modelled by the inductive `Json`; `JSON.parse` itself by a
fuel-based recursive-descent parser `parseJson` following the JSON grammar and
JavaScript's acceptance behaviour (strict grammar, ws = space/tab/LF/CR,
last duplicate object key wins); the WHATWG incremental `TextDecoder` by a
per-byte DFA `utf8Step` (with BOM stripping and U+FFFD replacement);
the generator's observable output by `parseSSEStream : List (List Nat) →
List ChatStreamChunk`, a function from the list of read chunks (byte lists)
to the list of emitted chunks.
-/

namespace Byok

/-- Left brace character, written via its code point. -/
def lbrace : Char := Char.ofNat 123

/-- Right brace character, written via its code point. -/
def rbrace : Char := Char.ofNat 125

/-- JavaScript values reachable from `JSON.parse`: null, booleans, numbers,
strings, arrays, objects.  A number literal is kept exactly as
`(neg, mant, exp)` meaning `(-1)^neg * mant * 10^exp`; the decoder never
compares numbers, it only asks whether one is zero (JS truthiness), which this
representation answers exactly (ignoring double-precision rounding, which no
claim exercises). -/
inductive Json where
  | null : Json
  | bool (b : Bool) : Json
  | num (neg : Bool) (mant : Nat) (exp : Int) : Json
  | str (s : String) : Json
  | arr (elems : List Json) : Json
  | obj (fields : List (String × Json)) : Json
deriving Repr

/-- Decimal digit test. -/
def isDigit (c : Char) : Bool := decide (48 ≤ c.toNat ∧ c.toNat ≤ 57)

/-- Whitespace accepted by `JSON.parse` between tokens: space, tab, LF, CR. -/
def jsonWs (c : Char) : Bool := decide (c = ' ' ∨ c = '\t' ∨ c = '\n' ∨ c = '\r')

/-- Drop leading JSON whitespace. -/
def skipWs (s : List Char) : List Char := s.dropWhile jsonWs

/-- Numeric value of a list of decimal digit characters. -/
def natOfDigits (ds : List Char) : Nat :=
  ds.foldl (fun a c => a * 10 + (c.toNat - 48)) 0

/-- Value of one hex digit character, if any. -/
def hexVal (c : Char) : Option Nat :=
  let n := c.toNat
  if 48 ≤ n ∧ n ≤ 57 then some (n - 48)
  else if 65 ≤ n ∧ n ≤ 70 then some (n - 55)
  else if 97 ≤ n ∧ n ≤ 102 then some (n - 87)
  else none

/-- Value of a 4-hex-digit escape. -/
def hex4 (a b c d : Char) : Option Nat :=
  match hexVal a, hexVal b, hexVal c, hexVal d with
  | some x, some y, some z, some w => some (((x * 16 + y) * 16 + z) * 16 + w)
  | _, _, _, _ => none

/-- Simple (single-character) string escapes of JSON. -/
def escChar (c : Char) : Option Char :=
  if c = '"' then some '"'
  else if c = '\\' then some '\\'
  else if c = '/' then some '/'
  else if c = 'b' then some (Char.ofNat 8)
  else if c = 'f' then some (Char.ofNat 12)
  else if c = 'n' then some '\n'
  else if c = 'r' then some (Char.ofNat 13)
  else if c = 't' then some '\t'
  else none

/-- Parse the body of a JSON string (after the opening quote), returning the
decoded characters and the input after the closing quote.  `\uXXXX` escapes
pair up surrogates as JavaScript does; a lone surrogate (impossible to carry in
`Char`) degrades to `Char.ofNat`'s default, a corner no claim exercises.
Unescaped control characters are rejected, as in `JSON.parse`. -/
def pStr : Nat → List Char → Option (List Char × List Char)
  | 0, _ => none
  | Nat.succ fuel, s =>
    match s with
    | [] => none
    | c :: r =>
      if c = '"' then some ([], r)
      else if c = '\\' then
        match r with
        | [] => none
        | e :: r2 =>
          if e = 'u' then
            match r2 with
            | h1 :: h2 :: h3 :: h4 :: r3 =>
              match hex4 h1 h2 h3 h4 with
              | none => none
              | some cp =>
                if 0xD800 ≤ cp ∧ cp ≤ 0xDBFF then
                  match r3 with
                  | '\\' :: 'u' :: l1 :: l2 :: l3 :: l4 :: r4 =>
                    match hex4 l1 l2 l3 l4 with
                    | some lo =>
                      if 0xDC00 ≤ lo ∧ lo ≤ 0xDFFF then
                        (pStr fuel r4).map fun p =>
                          (Char.ofNat (0x10000 + (cp - 0xD800) * 0x400 + (lo - 0xDC00)) :: p.1, p.2)
                      else (pStr fuel r3).map fun p => (Char.ofNat cp :: p.1, p.2)
                    | none => (pStr fuel r3).map fun p => (Char.ofNat cp :: p.1, p.2)
                  | _ => (pStr fuel r3).map fun p => (Char.ofNat cp :: p.1, p.2)
                else (pStr fuel r3).map fun p => (Char.ofNat cp :: p.1, p.2)
            | _ => none
          else
            match escChar e with
            | some d => (pStr fuel r2).map fun p => (d :: p.1, p.2)
            | none => none
      else if c.toNat < 0x20 then none
      else (pStr fuel r).map fun p => (c :: p.1, p.2)

/-- Parse a JSON number literal (strict JSON grammar: no leading `+`, no bare
`.5`, a leading `0` must stand alone; anything after the literal is left for
the caller, whose grammar then rejects stray digits such as in `01`). -/
def pNum (s : List Char) : Option (Json × List Char) :=
  let p0 : Bool × List Char := match s with
    | '-' :: r => (true, r)
    | _ => (false, s)
  let neg := p0.1
  let s1 := p0.2
  match s1 with
  | [] => none
  | c :: cr =>
    if ¬ isDigit c then none
    else
      let intPart : List Char × List Char :=
        if c = '0' then ([c], cr) else (s1.takeWhile isDigit, s1.dropWhile isDigit)
      let intDs := intPart.1
      let s2 := intPart.2
      let fracPart : List Char × List Char :=
        match s2 with
        | '.' :: r =>
          let ds := r.takeWhile isDigit
          if ds = [] then ([], s2) else (ds, r.dropWhile isDigit)
        | _ => ([], s2)
      let fracDs := fracPart.1
      let s3 := fracPart.2
      let expPart : Int × List Char :=
        match s3 with
        | e :: r =>
          if e = 'e' ∨ e = 'E' then
            let sg : Int × List Char := match r with
              | '+' :: r2 => (1, r2)
              | '-' :: r2 => (-1, r2)
              | _ => (1, r)
            let ds := sg.2.takeWhile isDigit
            if ds = [] then (0, s3)
            else (sg.1 * (natOfDigits ds : Int), sg.2.dropWhile isDigit)
          else (0, s3)
        | [] => (0, s3)
      some (Json.num neg (natOfDigits (intDs ++ fracDs)) (expPart.1 - fracDs.length),
            expPart.2)

mutual

/-- Parse one JSON value (input begins at the value, no leading whitespace). -/
def pVal : Nat → List Char → Option (Json × List Char)
  | 0, _ => none
  | Nat.succ fuel, s =>
    match s with
    | [] => none
    | c :: r =>
      if c = lbrace then
        match skipWs r with
        | [] => none
        | c1 :: r1 =>
          if c1 = rbrace then some (Json.obj [], r1)
          else
            match pMember fuel (c1 :: r1) with
            | some (kv, r2) => pObjRest fuel (skipWs r2) [kv]
            | none => none
      else if c = '[' then
        match skipWs r with
        | [] => none
        | ']' :: r1 => some (Json.arr [], r1)
        | s1 =>
          match pVal fuel s1 with
          | some (v, r1) => pArrRest fuel (skipWs r1) [v]
          | none => none
      else if c = '"' then
        (pStr fuel r).map fun p => (Json.str (String.mk p.1), p.2)
      else
        match s with
        | 'n' :: 'u' :: 'l' :: 'l' :: r2 => some (Json.null, r2)
        | 't' :: 'r' :: 'u' :: 'e' :: r2 => some (Json.bool true, r2)
        | 'f' :: 'a' :: 'l' :: 's' :: 'e' :: r2 => some (Json.bool false, r2)
        | _ => pNum s

/-- Parse one `"key": value` object member. -/
def pMember : Nat → List Char → Option ((String × Json) × List Char)
  | 0, _ => none
  | Nat.succ fuel, s =>
    match s with
    | c :: r =>
      if c = '"' then
        match pStr fuel r with
        | some (ks, r1) =>
          match skipWs r1 with
          | ':' :: r2 =>
            (pVal fuel (skipWs r2)).map fun p => ((String.mk ks, p.1), p.2)
          | _ => none
        | none => none
      else none
    | [] => none

/-- Parse the remainder of an object after its first member. -/
def pObjRest : Nat → List Char → List (String × Json) → Option (Json × List Char)
  | 0, _, _ => none
  | Nat.succ fuel, s, acc =>
    match s with
    | c :: r =>
      if c = rbrace then some (Json.obj acc.reverse, r)
      else if c = ',' then
        match pMember fuel (skipWs r) with
        | some (kv, r1) => pObjRest fuel (skipWs r1) (kv :: acc)
        | none => none
      else none
    | [] => none

/-- Parse the remainder of an array after its first element. -/
def pArrRest : Nat → List Char → List Json → Option (Json × List Char)
  | 0, _, _ => none
  | Nat.succ fuel, s, acc =>
    match s with
    | ']' :: r => some (Json.arr acc.reverse, r)
    | ',' :: r =>
      match pVal fuel (skipWs r) with
      | some (v, r1) => pArrRest fuel (skipWs r1) (v :: acc)
      | none => none
    | _ => none

end

/-- Model of `JSON.parse` on a character list: parse one value surrounded by
optional whitespace, reject trailing input.  Every recursive call in the
parser first consumes at least one character, so fuel `length + 1` never runs
out on the way to an answer. -/
def parseJson (s : List Char) : Option Json :=
  match pVal (s.length + 1) (skipWs s) with
  | some (v, r) => if skipWs r = [] then some v else none
  | none => none

/-- JavaScript truthiness of a `Json` value: `null`, `false`, `0` and `""` are
falsy; every other value (including empty arrays and objects) is truthy. -/
def truthy : Json → Bool
  | .null => false
  | .bool b => b
  | .num _ m _ => decide (m ≠ 0)
  | .str s => !(s == "")
  | .arr _ => true
  | .obj _ => true

/-- Object property lookup where a later duplicate key wins, as in a JS object
literal built by `JSON.parse`. -/
def lookupLast (fs : List (String × Json)) (k : String) : Option Json :=
  fs.foldl (fun acc kv => if kv.1 = k then some kv.2 else acc) none

/-- JavaScript property access `v.k`: defined only on objects; on every other
value the result is `undefined`, modelled as `none`. -/
def jget : Json → String → Option Json
  | .obj fs, k => lookupLast fs k
  | _, _ => none

/-- JavaScript index access `v[0]`: first element of an array, property `"0"`
of an object, one-character string for a non-empty string, else `undefined`. -/
def jidx0 : Json → Option Json
  | .arr (x :: _) => some x
  | .obj fs => lookupLast fs "0"
  | .str s =>
    match s.toList with
    | [] => none
    | c :: _ => some (.str (String.mk [c]))
  | _ => none

/-- Optional chaining `o?.k`: short-circuits to `undefined` on `null` or
`undefined`, otherwise accesses the property. -/
def oget (o : Option Json) (k : String) : Option Json :=
  match o with
  | some Json.null => none
  | some v => jget v k
  | none => none

/-- Optional chaining `o?.[0]`. -/
def oidx0 (o : Option Json) : Option Json :=
  match o with
  | some Json.null => none
  | some v => jidx0 v
  | none => none

/-- Truthiness of a possibly-`undefined` value, as in `if (delta?.content)`. -/
def truthyOpt (o : Option Json) : Bool :=
  match o with
  | some v => truthy v
  | none => false

/-- The whitespace set of JavaScript's `String.prototype.trim` (WhiteSpace and
LineTerminator code points). -/
def jsWhitespace (c : Char) : Bool :=
  let n := c.toNat
  decide ((9 ≤ n ∧ n ≤ 13) ∨ n = 32 ∨ n = 0xA0 ∨ n = 0x1680 ∨
    (0x2000 ≤ n ∧ n ≤ 0x200A) ∨ n = 0x2028 ∨ n = 0x2029 ∨ n = 0x202F ∨
    n = 0x205F ∨ n = 0x3000 ∨ n = 0xFEFF)

/-- Model of `line.trim()`: drop JS whitespace from both ends. -/
def jsTrim (l : List Char) : List Char :=
  ((l.dropWhile jsWhitespace).reverse.dropWhile jsWhitespace).reverse

/-- Model of `parseInt(s, 10)`: skip leading JS whitespace, read an optional
sign and then leading decimal digits; no digits means `NaN`, modelled as
`none`.  (JavaScript rounds results beyond 2^53 to a double; the model is
exact, a difference no claim exercises.) -/
def parseIntTen (s : String) : Option Int :=
  let l := s.toList.dropWhile jsWhitespace
  let sg : Bool × List Char := match l with
    | '-' :: r => (true, r)
    | '+' :: r => (false, r)
    | _ => (false, l)
  let ds := sg.2.takeWhile isDigit
  if ds = [] then none
  else some (if sg.1 then -(natOfDigits ds : Int) else (natOfDigits ds : Int))

/-! ### WHATWG incremental UTF-8 decoder (`new TextDecoder()` with
`{stream: true}`), as a per-byte DFA. -/

/-- State of a `TextDecoder` instance: the UTF-8 DFA registers of the WHATWG
Encoding Standard plus the BOM-seen flag (a default `TextDecoder` strips a
leading U+FEFF). -/
structure DecoderState where
  codePoint : Nat
  bytesSeen : Nat
  bytesNeeded : Nat
  lowerBoundary : Nat
  upperBoundary : Nat
  bomSeen : Bool
deriving DecidableEq, Repr

/-- Fresh decoder state. -/
def initDecoder : DecoderState := ⟨0, 0, 0, 0x80, 0xBF, false⟩

/-- Reset the DFA registers after emitting a code point or an error. -/
def resetDfa (st : DecoderState) : DecoderState :=
  { st with codePoint := 0, bytesSeen := 0, bytesNeeded := 0,
            lowerBoundary := 0x80, upperBoundary := 0xBF }

/-- Emit one decoded code point, stripping it when it is the stream's first
output item and equals the U+FEFF byte-order mark. -/
def emitCp (st : DecoderState) (cp : Nat) : DecoderState × List Char :=
  if st.bomSeen then (st, [Char.ofNat cp])
  else ({ st with bomSeen := true }, if cp = 0xFEFF then [] else [Char.ofNat cp])

/-- One byte through the DFA from the `bytesNeeded = 0` state. -/
def utf8StepInit (st : DecoderState) (b : Nat) : DecoderState × List Char :=
  if b ≤ 0x7F then emitCp st b
  else if 0xC2 ≤ b ∧ b ≤ 0xDF then
    ({ st with bytesNeeded := 1, codePoint := b % 32 }, [])
  else if 0xE0 ≤ b ∧ b ≤ 0xEF then
    ({ st with bytesNeeded := 2, codePoint := b % 16,
               lowerBoundary := if b = 0xE0 then 0xA0 else 0x80,
               upperBoundary := if b = 0xED then 0x9F else 0xBF }, [])
  else if 0xF0 ≤ b ∧ b ≤ 0xF4 then
    ({ st with bytesNeeded := 3, codePoint := b % 8,
               lowerBoundary := if b = 0xF0 then 0x90 else 0x80,
               upperBoundary := if b = 0xF4 then 0x8F else 0xBF }, [])
  else emitCp st 0xFFFD

/-- One byte through the DFA: either start a sequence, extend one, or (on a
continuation-range violation) emit U+FFFD and reconsume the byte from the
initial state, per the Encoding Standard's replacement error mode. -/
def utf8Step (st : DecoderState) (b : Nat) : DecoderState × List Char :=
  if st.bytesNeeded = 0 then utf8StepInit st b
  else if st.lowerBoundary ≤ b ∧ b ≤ st.upperBoundary then
    let cp := st.codePoint * 64 + b % 64
    if st.bytesSeen + 1 = st.bytesNeeded then emitCp (resetDfa st) cp
    else ({ st with codePoint := cp, bytesSeen := st.bytesSeen + 1,
                    lowerBoundary := 0x80, upperBoundary := 0xBF }, [])
  else
    let r1 := emitCp (resetDfa st) 0xFFFD
    let r2 := utf8StepInit r1.1 b
    (r2.1, r1.2 ++ r2.2)

/-- One byte of `decodeChunk`'s fold: step the DFA, accumulate its output. -/
def decodeStep (a : DecoderState × List Char) (b : Nat) : DecoderState × List Char :=
  ((utf8Step a.1 b).1, a.2 ++ (utf8Step a.1 b).2)

/-- Model of `decoder.decode(value, { stream: true })`: push a chunk of bytes
through the DFA, returning the new decoder state and the decoded text.  A
partial code point at the end of the chunk stays in the state (the source
never flushes the decoder, so bytes of an unfinished code point at end of
data are simply dropped). -/
def decodeChunk (st : DecoderState) (bytes : List Nat) : DecoderState × List Char :=
  bytes.foldl decodeStep (st, [])

/-! ### The SSE stream decoder (`parseSSEStream`, src/streaming.ts). -/

/-- One emitted chunk (`ChatStreamChunk`).  The `content` field keeps the raw
JavaScript value the generator yields: the declared TypeScript type is
`string`, but the source yields `delta.content` unchecked, so a server frame
carrying a truthy non-string reaches the consumer as is. -/
structure ChatStreamChunk where
  content : Json
  done : Bool
deriving Repr

/-- The terminal chunk `{ content: "", done: true }`. -/
def terminalChunk : ChatStreamChunk := ⟨Json.str "", true⟩

/-- Output side of the generator: the chunks yielded so far, and whether the
generator has executed `return` (after which nothing further is processed). -/
structure OutState where
  out : List ChatStreamChunk
  halted : Bool

/-- The characters of the literal prefix `"data: "`. -/
def dataMark : List Char := "data: ".toList

/-- The characters of the sentinel payload `"[DONE]"`. -/
def doneMark : List Char := "[DONE]".toList

/-- Model of `parsed?.choices?.[0]`. -/
def choices0 (p : Json) : Option Json := oidx0 (oget (some p) "choices")

/-- Model of `parsed?.choices?.[0]?.delta`. -/
def deltaOf (p : Json) : Option Json := oget (choices0 p) "delta"

/-- Model of `delta?.content`. -/
def contentOf (p : Json) : Option Json := oget (deltaOf p) "content"

/-- Model of `parsed?.choices?.[0]?.finish_reason`. -/
def finishReasonOf (p : Json) : Option Json := oget (choices0 p) "finish_reason"

/-- Process one complete line, as the body of the source's `for` loop does:
skip blank and non-`data: ` lines; on `[DONE]` yield the terminal chunk and
return; otherwise `JSON.parse` the payload (silently skipping on failure),
yield a content chunk when `delta?.content` is truthy, then yield the terminal
chunk and return when `finish_reason` is truthy.  A halted generator processes
nothing. -/
def processLine (st : OutState) (line : List Char) : OutState :=
  if st.halted then st
  else
    let trimmed := jsTrim line
    if trimmed = [] then st
    else if trimmed.take 6 = dataMark then
      let data := trimmed.drop 6
      if data = doneMark then ⟨st.out ++ [terminalChunk], true⟩
      else
        match parseJson data with
        | none => st
        | some parsed =>
          let st1 :=
            if truthyOpt (contentOf parsed) then
              ⟨st.out ++ [⟨(contentOf parsed).getD Json.null, false⟩], st.halted⟩
            else st
          if truthyOpt (finishReasonOf parsed) then ⟨st1.out ++ [terminalChunk], true⟩
          else st1
    else st

/-- Split text into the complete lines before each `"\n"` and the trailing
remainder, exactly as `buffer.split("\n")` followed by `buffer = lines.pop()`
computes them: the result's first component is every part of the split but the
last, the second component is the last part. -/
def linesOf : List Char → List (List Char) × List Char
  | [] => ([], [])
  | c :: cs =>
    if c = '\n' then ([] :: (linesOf cs).1, (linesOf cs).2)
    else
      match linesOf cs with
      | ([], r) => ([], c :: r)
      | (l :: ls, r) => ((c :: l) :: ls, r)

/-- Full state of one `parseSSEStream` invocation between reads. -/
structure StreamState where
  decoder : DecoderState
  buffer : List Char
  os : OutState

/-- Append freshly decoded text to the buffer, split off the complete lines,
process them in order, and keep the (possibly incomplete) last part as the new
buffer. -/
def feedText (st : StreamState) (text : List Char) : StreamState :=
  let p := linesOf (st.buffer ++ text)
  ⟨st.decoder, p.2, p.1.foldl processLine st.os⟩

/-- One iteration of the read loop on a successful read: incrementally decode
the bytes, then run the line machinery. -/
def feedBytes (st : StreamState) (bytes : List Nat) : StreamState :=
  let r := decodeChunk st.decoder bytes
  feedText ⟨r.1, st.buffer, st.os⟩ r.2

/-- State at the start of the invocation. -/
def initState : StreamState := ⟨initDecoder, [], ⟨[], false⟩⟩

/-- After the read loop ends without an early return, the source inspects the
remaining buffer: a trimmed `data: [DONE]` still yields the terminal chunk. -/
def flushBuffer (st : StreamState) : List ChatStreamChunk :=
  if st.os.halted then st.os.out
  else
    let t := jsTrim st.buffer
    if t.take 6 = dataMark ∧ t.drop 6 = doneMark then st.os.out ++ [terminalChunk]
    else st.os.out

/-- The observable output of `parseSSEStream` (src/streaming.ts): given the
successive byte chunks delivered by `reader.read()`, the list of
`ChatStreamChunk` values the async generator yields, in order. -/
def parseSSEStream (chunks : List (List Nat)) : List ChatStreamChunk :=
  flushBuffer (chunks.foldl feedBytes initState)

/-- ASCII encoding of a string, for writing concrete byte streams. -/
def asciiBytes (s : String) : List Nat := s.toList.map Char.toNat

/-! ### The HTTP error classifier (`throwForStatus`, src/errors.ts). -/

/-- The slice of an HTTP `Response` the classifier consults: status code,
status text, body text (what `response.json()` parses), and the
`retry-after` header (`none` when absent). -/
structure Rsp where
  status : Nat
  statusText : String
  bodyText : List Char
  retryAfterHeader : Option String

/-- The `retryAfter` field of a thrown error: `undefined` (absent header,
empty header, or a non-`RateLimitError` class without the field), `NaN`
(non-numeric non-empty header), or a parsed number of seconds. -/
inductive RetryAfter where
  | undef : RetryAfter
  | nan : RetryAfter
  | val (n : Int) : RetryAfter
deriving DecidableEq, Repr

/-- The thrown error object: its class name, and the fields the `ByokError`
hierarchy carries.  `message` keeps the raw value handed to the `Error`
constructor (JavaScript would stringify a non-string; every claim exercises
string messages only).  `code`/`type`/`details` are `none` when the property
would be `undefined`. -/
structure ErrVal where
  name : String
  message : Json
  status : Nat
  code : Option Json
  type : Option Json
  details : Option Json
  retryAfter : RetryAfter

/-- The body-inspection phase of `throwForStatus`: the
`(message, code, type, details)` locals after the `try`/`catch` block.  On a
JSON body with a truthy `error` field, a string `error` becomes
`{ message: error }`; the fields then come from the error object with the
message falling back (nullishly) to `"BYOK API error (<status>)"`.  On a
non-JSON body, the message is `statusText || <fallback>`. -/
def errorParts (r : Rsp) : Json × Option Json × Option Json × Option Json :=
  let base := Json.str ("BYOK API error (" ++ toString r.status ++ ")")
  match parseJson r.bodyText with
  | none => (if r.statusText = "" then base else Json.str r.statusText, none, none, none)
  | some body =>
    match oget (some body) "error" with
    | some e =>
      if truthy e then
        let err := match e with
          | Json.str s => Json.obj [("message", Json.str s)]
          | _ => e
        let msg := match jget err "message" with
          | some Json.null => base
          | some v => v
          | none => base
        (msg, jget err "code", jget err "type", jget err "details")
      else (base, none, none, none)
    | none => (base, none, none, none)

/-- The `retryAfter` value passed to `RateLimitError`:
`retryAfter ? parseInt(retryAfter, 10) : undefined`. -/
def retryAfterOf (r : Rsp) : RetryAfter :=
  match r.retryAfterHeader with
  | none => .undef
  | some s =>
    if s = "" then .undef
    else
      match parseIntTen s with
      | none => .nan
      | some n => .val n

/-- Model of `throwForStatus` (src/errors.ts): the typed error it throws.
The switch on the status code picks the class; each class fixes its own
status; `details` flows through only for 422 and the generic default;
`retryAfter` only for 429. -/
def throwForStatus (r : Rsp) : ErrVal :=
  let p := errorParts r
  match r.status with
  | 401 => ⟨"AuthenticationError", p.1, 401, p.2.1, p.2.2.1, none, .undef⟩
  | 402 => ⟨"PaymentRequiredError", p.1, 402, p.2.1, p.2.2.1, none, .undef⟩
  | 403 => ⟨"ForbiddenError", p.1, 403, p.2.1, p.2.2.1, none, .undef⟩
  | 404 => ⟨"NotFoundError", p.1, 404, p.2.1, p.2.2.1, none, .undef⟩
  | 422 => ⟨"ValidationError", p.1, 422, p.2.1, p.2.2.1, p.2.2.2, .undef⟩
  | 429 => ⟨"RateLimitError", p.1, 429, p.2.1, p.2.2.1, none, retryAfterOf r⟩
  | 502 => ⟨"ProviderError", p.1, 502, p.2.1, p.2.2.1, none, .undef⟩
  | s => ⟨"ByokError", p.1, s, p.2.1, p.2.2.1, p.2.2.2, .undef⟩

/-! ### Lemmas: line splitting composes under concatenation. -/

/-- Splitting `x ++ y` first runs the split of `x`; its remainder merges with
the head of `y`'s split. -/
theorem linesOf_append (x y : List Char) :
    linesOf (x ++ y) = ((linesOf x).1 ++ (linesOf ((linesOf x).2 ++ y)).1,
                        (linesOf ((linesOf x).2 ++ y)).2) := by
  induction x with
  | nil => simp [linesOf]
  | cons c x ih =>
    by_cases hc : c = '\n'
    · subst hc
      simp [linesOf, ih]
    · rcases h : linesOf x with ⟨l1, r1⟩
      rcases h2 : linesOf (r1 ++ y) with ⟨l2, r2⟩
      cases l1 with
      | nil =>
        simp only [List.cons_append, linesOf, if_neg hc, List.append_eq, ih, h, h2,
          List.nil_append]
      | cons l ls =>
        simp only [List.cons_append, linesOf, if_neg hc, List.append_eq, ih, h, h2,
          List.cons_append]

/-- A newline-free text splits into no complete line and itself as remainder. -/
theorem linesOf_of_noNl (l : List Char) (h : '\n' ∉ l) : linesOf l = ([], l) := by
  induction l with
  | nil => rfl
  | cons c cs ih =>
    have hc : ¬ c = '\n' := fun hcc => h (hcc ▸ List.mem_cons_self c cs)
    have hcs : '\n' ∉ cs := fun hm => h (List.mem_cons_of_mem c hm)
    simp [linesOf, hc, ih hcs]

/-- The remainder of a split never contains a newline. -/
theorem linesOf_rem_noNl (l : List Char) : '\n' ∉ (linesOf l).2 := by
  induction l with
  | nil => simp [linesOf]
  | cons c cs ih =>
    by_cases hc : c = '\n'
    · subst hc; simpa [linesOf] using ih
    · rcases h : linesOf cs with ⟨l1, r1⟩
      cases l1 with
      | nil =>
        simp only [linesOf, if_neg hc, h]
        intro hm
        rcases List.mem_cons.mp hm with h1 | h1
        · exact hc h1.symm
        · exact ih (by simp [h, h1])
      | cons l ls => simpa [linesOf, if_neg hc, h] using ih

/-- A newline-free text followed by one newline splits into exactly that one
complete line. -/
theorem linesOf_noNl_nl (x : List Char) (h : '\n' ∉ x) :
    linesOf (x ++ ['\n']) = ([x], []) := by
  induction x with
  | nil => rfl
  | cons c cs ih =>
    have hc : ¬ c = '\n' := fun hcc => h (hcc ▸ List.mem_cons_self c cs)
    have hcs : '\n' ∉ cs := fun hm => h (List.mem_cons_of_mem c hm)
    simp [linesOf, hc, ih hcs]

/-! ### Lemmas: the incremental decoder composes under concatenation. -/

/-- The fold inside `decodeChunk` only accumulates output on the right. -/
theorem decodeChunk_foldl (bytes : List Nat) (p : DecoderState × List Char) :
    bytes.foldl decodeStep p
      = ((decodeChunk p.1 bytes).1, p.2 ++ (decodeChunk p.1 bytes).2) := by
  induction bytes generalizing p with
  | nil => simp [decodeChunk]
  | cons b bs ih =>
    have hrhs : decodeChunk p.1 (b :: bs) = List.foldl decodeStep (decodeStep (p.1, []) b) bs := by
      simp only [decodeChunk, List.foldl_cons]
    rw [List.foldl_cons, ih (decodeStep p b), hrhs, ih (decodeStep (p.1, []) b)]
    simp [decodeStep, List.append_assoc]

/-- Decoding a concatenation equals decoding the pieces with carried state. -/
theorem decodeChunk_append (st : DecoderState) (b1 b2 : List Nat) :
    decodeChunk st (b1 ++ b2)
      = ((decodeChunk (decodeChunk st b1).1 b2).1,
         (decodeChunk st b1).2 ++ (decodeChunk (decodeChunk st b1).1 b2).2) := by
  show List.foldl _ (st, []) (b1 ++ b2) = _
  rw [List.foldl_append, decodeChunk_foldl, decodeChunk_foldl]
  simp [decodeChunk]

/-! ### Lemmas: one read-loop iteration composes under concatenation. -/

/-- Feeding text twice equals feeding the concatenation. -/
theorem feedText_append (st : StreamState) (t1 t2 : List Char) :
    feedText (feedText st t1) t2 = feedText st (t1 ++ t2) := by
  simp only [feedText]
  rw [← List.append_assoc, linesOf_append (st.buffer ++ t1) t2]
  simp [List.foldl_append]

/-- Feeding bytes twice equals feeding the concatenation: framing carries all
its state in `StreamState`. -/
theorem feedBytes_append (st : StreamState) (b1 b2 : List Nat) :
    feedBytes (feedBytes st b1) b2 = feedBytes st (b1 ++ b2) := by
  simp only [feedBytes, feedText, decodeChunk_append]
  rw [← List.append_assoc,
    linesOf_append (st.buffer ++ (decodeChunk st.decoder b1).2) (decodeChunk (decodeChunk st.decoder b1).1 b2).2]
  simp [List.foldl_append]

/-- Reading bytes leaves no newline in the buffer. -/
theorem feedBytes_buffer_noNl (st : StreamState) (bytes : List Nat) :
    '\n' ∉ (feedBytes st bytes).buffer := by
  simp only [feedBytes, feedText]
  exact linesOf_rem_noNl _

/-- Feeding no bytes from a newline-free buffer is a no-op. -/
theorem feedBytes_nil (st : StreamState) (h : '\n' ∉ st.buffer) :
    feedBytes st [] = st := by
  simp [feedBytes, decodeChunk, feedText, linesOf_of_noNl st.buffer h]

/-- The read loop over a list of chunks equals one read of their
concatenation: chunk boundaries are invisible to the state machine. -/
theorem foldl_feedBytes_flatten (chunks : List (List Nat)) (st : StreamState)
    (h : '\n' ∉ st.buffer) :
    chunks.foldl feedBytes st = feedBytes st chunks.flatten := by
  induction chunks generalizing st with
  | nil => simp [feedBytes_nil st h]
  | cons c cs ih =>
    simp only [List.foldl_cons, List.flatten_cons]
    rw [ih _ (feedBytes_buffer_noNl st c), feedBytes_append]

/-! ### Lemmas: what one line can contribute to the output. -/

/-- A truthy optional value is present, and `getD` recovers it truthy. -/
theorem truthyOpt_getD (o : Option Json) (h : truthyOpt o = true) :
    truthy (o.getD Json.null) = true := by
  cases o with
  | none => simp [truthyOpt] at h
  | some v => simpa [truthyOpt] using h

/-- A halted generator ignores every further line. -/
theorem processLine_halted (o : OutState) (line : List Char) (h : o.halted = true) :
    processLine o line = o := by
  simp [processLine, h]

/-- A halted generator ignores every further list of lines. -/
theorem foldl_processLine_halted (ls : List (List Char)) (o : OutState)
    (h : o.halted = true) : ls.foldl processLine o = o := by
  induction ls with
  | nil => rfl
  | cons l ls ih => rw [List.foldl_cons, processLine_halted o l h, ih]

/-- Case analysis on one line: it leaves the output untouched, appends the
terminal chunk and halts, or appends one truthy content chunk — possibly
followed by the terminal chunk with a halt. -/
theorem processLine_shapes (o : OutState) (line : List Char) :
    processLine o line = o
    ∨ (o.halted = false ∧ processLine o line = ⟨o.out ++ [terminalChunk], true⟩)
    ∨ (o.halted = false ∧ ∃ v, truthy v = true ∧
        (processLine o line = ⟨o.out ++ [⟨v, false⟩], false⟩
          ∨ processLine o line = ⟨o.out ++ [⟨v, false⟩, terminalChunk], true⟩)) := by
  by_cases hh : o.halted = true
  · left; exact processLine_halted o line hh
  · have hh0 : o.halted = false := by revert hh; cases o.halted <;> simp
    by_cases h1 : jsTrim line = []
    · left; simp [processLine, hh0, h1]
    · by_cases h2 : (jsTrim line).take 6 = dataMark
      · by_cases h3 : (jsTrim line).drop 6 = doneMark
        · right; left
          exact ⟨hh0, by simp [processLine, hh0, h1, h2, h3]⟩
        · cases hp : parseJson ((jsTrim line).drop 6) with
          | none => left; simp [processLine, hh0, h1, h2, h3, hp]
          | some parsed =>
            by_cases hc : truthyOpt (contentOf parsed) = true
            · by_cases hf : truthyOpt (finishReasonOf parsed) = true
              · right; right
                refine ⟨hh0, (contentOf parsed).getD Json.null, truthyOpt_getD _ hc, Or.inr ?_⟩
                simp [processLine, hh0, h1, h2, h3, hp, hc, hf]
              · right; right
                refine ⟨hh0, (contentOf parsed).getD Json.null, truthyOpt_getD _ hc, Or.inl ?_⟩
                simp [processLine, hh0, h1, h2, h3, hp, hc, hf]
            · by_cases hf : truthyOpt (finishReasonOf parsed) = true
              · right; left
                exact ⟨hh0, by simp [processLine, hh0, h1, h2, h3, hp, hc, hf]⟩
              · left; simp [processLine, hh0, h1, h2, h3, hp, hc, hf]
      · left; simp [processLine, hh0, h1, h2]

/-! ### Lemmas: the output invariant.  At every point, all chunks before a
terminal one are non-terminal content chunks with truthy content, and the
generator has halted exactly when a terminal chunk has been emitted last. -/

/-- The output invariant. -/
def InvOut (o : OutState) : Prop :=
  (∀ c ∈ o.out, c.done = false → truthy c.content = true) ∧
  (o.halted = false → ∀ c ∈ o.out, c.done = false) ∧
  (o.halted = true → ∃ pre, o.out = pre ++ [terminalChunk] ∧ ∀ c ∈ pre, c.done = false)

/-- The invariant holds initially. -/
theorem InvOut_init : InvOut ⟨[], false⟩ := by
  refine ⟨?_, ?_, ?_⟩ <;> simp

/-- One line preserves the invariant. -/
theorem InvOut_processLine (o : OutState) (line : List Char) (h : InvOut o) :
    InvOut (processLine o line) := by
  rcases processLine_shapes o line with heq | ⟨hh, heq⟩ | ⟨hh, v, hv, heq | heq⟩ <;> rw [heq]
  · exact h
  · refine ⟨?_, ?_, ?_⟩
    · intro c hc hdone
      rcases List.mem_append.mp hc with h1 | h1
      · exact h.1 c h1 hdone
      · rw [List.mem_singleton.mp h1] at hdone
        simp [terminalChunk] at hdone
    · intro hfalse; simp at hfalse
    · intro _; exact ⟨o.out, rfl, h.2.1 hh⟩
  · refine ⟨?_, ?_, ?_⟩
    · intro c hc hdone
      rcases List.mem_append.mp hc with h1 | h1
      · exact h.1 c h1 hdone
      · rw [List.mem_singleton.mp h1]; exact hv
    · intro _ c hc
      rcases List.mem_append.mp hc with h1 | h1
      · exact h.2.1 hh c h1
      · rw [List.mem_singleton.mp h1]
    · intro htrue; simp at htrue
  · refine ⟨?_, ?_, ?_⟩
    · intro c hc hdone
      rcases List.mem_append.mp hc with h1 | h1
      · exact h.1 c h1 hdone
      · rcases List.mem_cons.mp h1 with h2 | h2
        · rw [h2]; exact hv
        · rw [List.mem_singleton.mp h2] at hdone
          simp [terminalChunk] at hdone
    · intro hfalse; simp at hfalse
    · intro _
      refine ⟨o.out ++ [⟨v, false⟩], by simp, ?_⟩
      intro c hc
      rcases List.mem_append.mp hc with h1 | h1
      · exact h.2.1 hh c h1
      · rw [List.mem_singleton.mp h1]

/-- A list of lines preserves the invariant. -/
theorem InvOut_foldl (ls : List (List Char)) (o : OutState) (h : InvOut o) :
    InvOut (ls.foldl processLine o) := by
  induction ls generalizing o with
  | nil => exact h
  | cons l ls ih => exact ih _ (InvOut_processLine o l h)

/-- One read preserves the invariant. -/
theorem InvOut_feedBytes (st : StreamState) (bytes : List Nat) (h : InvOut st.os) :
    InvOut (feedBytes st bytes).os :=
  InvOut_foldl _ _ h

/-- The invariant holds after any run of the read loop. -/
theorem run_InvOut (cs : List (List Nat)) :
    InvOut (List.foldl feedBytes initState cs).os := by
  have main : ∀ (cs : List (List Nat)) (st : StreamState), InvOut st.os →
      InvOut (List.foldl feedBytes st cs).os := by
    intro cs
    induction cs with
    | nil => intro st h; exact h
    | cons c cs ih => intro st h; exact ih _ (InvOut_feedBytes st c h)
  exact main cs initState InvOut_init

/-- Once halted, further reads change neither output nor halt flag. -/
theorem feedBytes_os_halted (st : StreamState) (bytes : List Nat)
    (h : st.os.halted = true) : (feedBytes st bytes).os = st.os :=
  foldl_processLine_halted _ _ h

/-- Once halted, the rest of the stream changes nothing observable. -/
theorem foldl_feedBytes_os_halted (cs : List (List Nat)) (st : StreamState)
    (h : st.os.halted = true) : (List.foldl feedBytes st cs).os = st.os := by
  induction cs generalizing st with
  | nil => rfl
  | cons c cs ih =>
    rw [List.foldl_cons, ih _ (by rw [feedBytes_os_halted st c h]; exact h),
      feedBytes_os_halted st c h]

/-- The final output is either all content chunks, or content chunks followed
by exactly one terminal chunk. -/
theorem run_shape (cs : List (List Nat)) :
    (∀ c ∈ parseSSEStream cs, c.done = false)
    ∨ ∃ pre, parseSSEStream cs = pre ++ [terminalChunk] ∧ ∀ c ∈ pre, c.done = false := by
  have h := run_InvOut cs
  unfold parseSSEStream flushBuffer
  by_cases hh : (List.foldl feedBytes initState cs).os.halted = true
  · right; simpa [hh] using h.2.2 hh
  · have hh0 : (List.foldl feedBytes initState cs).os.halted = false := by
      revert hh; cases (List.foldl feedBytes initState cs).os.halted <;> simp
    by_cases hcond : (jsTrim (List.foldl feedBytes initState cs).buffer).take 6 = dataMark ∧
        (jsTrim (List.foldl feedBytes initState cs).buffer).drop 6 = doneMark
    · right
      refine ⟨(List.foldl feedBytes initState cs).os.out, by simp [hh0, hcond], h.2.1 hh0⟩
    · left; simpa [hh0, hcond] using h.2.1 hh0

/-- Every content chunk of the final output has truthy content. -/
theorem run_truthy (cs : List (List Nat)) :
    ∀ c ∈ parseSSEStream cs, c.done = false → truthy c.content = true := by
  have h := run_InvOut cs
  unfold parseSSEStream flushBuffer
  intro c hc hdone
  by_cases hh : (List.foldl feedBytes initState cs).os.halted = true
  · rw [if_pos hh] at hc; exact h.1 c hc hdone
  · have hh0 : (List.foldl feedBytes initState cs).os.halted = false := by
      revert hh; cases (List.foldl feedBytes initState cs).os.halted <;> simp
    rw [hh0] at hc
    simp only [Bool.false_eq_true, if_false] at hc
    by_cases hcond : (jsTrim (List.foldl feedBytes initState cs).buffer).take 6 = dataMark ∧
        (jsTrim (List.foldl feedBytes initState cs).buffer).drop 6 = doneMark
    · rw [if_pos hcond] at hc
      rcases List.mem_append.mp hc with h1 | h1
      · exact h.1 c h1 hdone
      · rw [List.mem_singleton.mp h1] at hdone
        simp [terminalChunk] at hdone
    · rw [if_neg hcond] at hc; exact h.1 c hc hdone

/-- A terminal chunk, when present, is the last element of the output. -/
theorem run_done_last (cs : List (List Nat)) :
    ∀ (i : Nat) (hi : i < (parseSSEStream cs).length),
      ((parseSSEStream cs).get ⟨i, hi⟩).done = true → i + 1 = (parseSSEStream cs).length := by
  rcases run_shape cs with hall | ⟨pre, heq, hpre⟩
  · intro i hi hdone
    rw [hall _ (List.get_mem _ _ _)] at hdone
    cases hdone
  · intro i hi hdone
    have hlen : (parseSSEStream cs).length = pre.length + 1 := by simp [heq]
    rcases Nat.lt_or_ge i pre.length with hlt | hge
    · exfalso
      have hq : (parseSSEStream cs)[i]? = some ((parseSSEStream cs).get ⟨i, hi⟩) := by
        simp [List.getElem?_eq_getElem hi]
      set c0 := (parseSSEStream cs).get ⟨i, hi⟩ with hc0def
      rw [heq, List.getElem?_append_left hlt, List.getElem?_eq_getElem hlt] at hq
      have hpc : pre[i] = c0 := Option.some.inj hq
      have hf := hpre _ (List.getElem_mem hlt)
      rw [hpc] at hf
      rw [hf] at hdone
      cases hdone
    · omega

/-! ### Further helper lemmas for the stream decoder. -/

/-- Unfolding of `feedBytes`, componentwise. -/
theorem feedBytes_def (st : StreamState) (bytes : List Nat) :
    feedBytes st bytes
      = feedText ⟨(decodeChunk st.decoder bytes).1, st.buffer, st.os⟩
          (decodeChunk st.decoder bytes).2 := rfl

/-- Unfolding of `feedText`, componentwise. -/
theorem feedText_def (st : StreamState) (text : List Char) :
    feedText st text
      = ⟨st.decoder, (linesOf (st.buffer ++ text)).2,
         (linesOf (st.buffer ++ text)).1.foldl processLine st.os⟩ := rfl

/-- A run over chunks equals a run over the concatenated bytes. -/
theorem parseSSEStream_flatten (cs : List (List Nat)) :
    parseSSEStream cs = flushBuffer (feedBytes initState cs.flatten) := by
  unfold parseSSEStream
  rw [foldl_feedBytes_flatten cs initState (by simp [initState])]

/-- Once halted, the buffer flush returns the output unchanged. -/
theorem flushBuffer_halted (st : StreamState) (h : st.os.halted = true) :
    flushBuffer st = st.os.out := by
  simp [flushBuffer, h]

/-- An ASCII byte passes straight through the decoder DFA. -/
theorem utf8Step_ascii (st : DecoderState) (b : Nat) (h0 : st.bytesNeeded = 0)
    (h1 : b ≤ 0x7F) :
    utf8Step st b = ({ st with bomSeen := true }, [Char.ofNat b]) := by
  rcases st with ⟨cp, seen, needed, lb, ub, bom⟩
  simp only [DecoderState.bytesNeeded] at h0
  subst h0
  have hne : b ≠ 0xFEFF := by omega
  cases bom <;> simp [utf8Step, utf8StepInit, emitCp, h1, hne]

/-- A chunk of ASCII bytes decodes to its characters and leaves the DFA in a
clean state. -/
theorem decodeChunk_ascii (bytes : List Nat) (st : DecoderState)
    (h0 : st.bytesNeeded = 0) (hb : ∀ b ∈ bytes, b ≤ 0x7F) :
    (decodeChunk st bytes).2 = bytes.map Char.ofNat
      ∧ (decodeChunk st bytes).1.bytesNeeded = 0 := by
  induction bytes generalizing st with
  | nil => exact ⟨rfl, h0⟩
  | cons b bs ih =>
    have hstep := utf8Step_ascii st b h0 (hb b (by simp))
    have hrest := ih { st with bomSeen := true } h0
      (fun x hx => hb x (List.mem_cons_of_mem _ hx))
    have h1 : decodeChunk st (b :: bs)
        = ((decodeChunk { st with bomSeen := true } bs).1,
           Char.ofNat b :: (decodeChunk { st with bomSeen := true } bs).2) := by
      show List.foldl decodeStep (st, []) (b :: bs) = _
      rw [List.foldl_cons]
      have hds : decodeStep (st, ([] : List Char)) b
          = ({ st with bomSeen := true }, [Char.ofNat b]) := by
        simp [decodeStep, hstep]
      rw [hds, decodeChunk_foldl]
      simp
    rw [h1]
    exact ⟨by simp [hrest.1], hrest.2⟩

/-- Processing the complete line `data: [DONE]` on a live generator emits the
terminal chunk and returns. -/
theorem processLine_doneLine (o : OutState) (hh0 : o.halted = false) :
    processLine o "data: [DONE]".toList = ⟨o.out ++ [terminalChunk], true⟩ := by
  unfold processLine
  rw [hh0]
  simp only [Bool.false_eq_true, if_false]
  rw [if_neg (by decide), if_pos (by decide), if_pos (by decide)]

/-- Processing a complete `data: ` line whose payload parses to a frame with a
non-empty string `delta.content` and a truthy `finish_reason` appends exactly
the content chunk then the terminal chunk, and returns. -/
theorem processLine_content_finish (o : OutState) (line payload : List Char)
    (p : Json) (s : String) (hh : o.halted = false)
    (htrim : jsTrim line = dataMark ++ payload)
    (hparse : parseJson payload = some p)
    (hcontent : contentOf p = some (Json.str s)) (hs : s ≠ "")
    (hfin : truthyOpt (finishReasonOf p) = true) :
    processLine o line = ⟨o.out ++ [⟨Json.str s, false⟩, terminalChunk], true⟩ := by
  have hd : parseJson doneMark = (none : Option Json) := rfl
  have hne : payload ≠ doneMark := by
    intro he
    rw [he, hd] at hparse
    exact Option.noConfusion hparse
  have htake : (dataMark ++ payload).take 6 = dataMark := List.take_left dataMark payload
  have hdrop : (dataMark ++ payload).drop 6 = payload := List.drop_left dataMark payload
  unfold processLine
  rw [hh]
  simp only [Bool.false_eq_true, if_false]
  rw [htrim, htake, hdrop]
  rw [if_neg (by simp [dataMark]), if_pos rfl, if_neg hne, hparse]
  dsimp only
  rw [hcontent]
  have hct : truthyOpt (some (Json.str s)) = true := by
    simp [truthyOpt, truthy, hs]
  rw [if_pos hct, hfin]
  simp

/-- A complete `data: ` line whose payload fails to parse is a no-op. -/
theorem processLine_malformed (o : OutState) (bad payload : List Char)
    (htrim : jsTrim bad = dataMark ++ payload) (hdone : payload ≠ doneMark)
    (hparse : parseJson payload = none) :
    processLine o bad = o := by
  by_cases hh : o.halted = true
  · exact processLine_halted o bad hh
  · have hh0 : o.halted = false := by revert hh; cases o.halted <;> simp
    have htake : (dataMark ++ payload).take 6 = dataMark := List.take_left dataMark payload
    have hdrop : (dataMark ++ payload).drop 6 = payload := List.drop_left dataMark payload
    unfold processLine
    rw [hh0]
    simp only [Bool.false_eq_true, if_false]
    rw [htrim, htake, hdrop]
    rw [if_neg (by simp [dataMark]), if_pos rfl, if_neg hdone, hparse]

/-! ### Concrete streams used by witnesses and counterexamples. -/

/-- The bytes of the sentinel line `data: [DONE]` (no newline). -/
def doneLineBytes : List Nat := asciiBytes "data: [DONE]"

/-- The bytes of a complete frame whose only payload is a truthy
`finish_reason`. -/
def finishLineBytes : List Nat :=
  asciiBytes "data: \x7b\"choices\":[\x7b\"finish_reason\":\"stop\"\x7d]\x7d" ++ [10]

/-- The bytes of a complete content frame whose `delta.content` is the string
`"é"` — a two-byte UTF-8 code point (0xC3 0xA9) at positions 39–40, so a split
at offset 40 cuts it in half. -/
def accentLineBytes : List Nat :=
  asciiBytes "data: \x7b\"choices\":[\x7b\"delta\":\x7b\"content\":\"" ++ [0xC3, 0xA9] ++
    asciiBytes "\"\x7d\x7d]\x7d" ++ [10]

/-- The line of a frame carrying both content `"Hi"` and a finish reason. -/
def bothLine : String :=
  "data: \x7b\"choices\":[\x7b\"delta\":\x7b\"content\":\"Hi\"\x7d,\"finish_reason\":\"stop\"\x7d]\x7d"

/-- The parse of `bothLine`'s payload. -/
def bothLineJson : Json :=
  Json.obj [("choices", Json.arr [Json.obj
    [("delta", Json.obj [("content", Json.str "Hi")]),
     ("finish_reason", Json.str "stop")]])]

/-- The bytes of a complete frame whose `delta.content` is the JSON literal
`true` — truthy but not a string. -/
def trueContentLineBytes : List Nat :=
  asciiBytes "data: \x7b\"choices\":[\x7b\"delta\":\x7b\"content\":true\x7d\x7d]\x7d" ++ [10]

/-! ### The claims about the stream decoder. -/

/-- C1: feeding the same logical byte stream split at arbitrary chunk
boundaries — including mid-line and mid-UTF-8-code-point — produces the
identical chunk sequence.  (Proved for every byte stream, well-formed or not:
the whole pipeline factors through the concatenated bytes.) -/
theorem parseSSEStream_split_invariant (cs1 cs2 : List (List Nat))
    (h : cs1.flatten = cs2.flatten) : parseSSEStream cs1 = parseSSEStream cs2 := by
  rw [parseSSEStream_flatten, parseSSEStream_flatten, h]

/-- C1 witness: one read of a whole content frame versus two reads split in
the middle of the two-byte UTF-8 encoding of `"é"`. -/
theorem parseSSEStream_split_invariant_witness :
    ([accentLineBytes] : List (List Nat)).flatten
        = [accentLineBytes.take 40, accentLineBytes.drop 40].flatten ∧
      parseSSEStream [accentLineBytes]
        = parseSSEStream [accentLineBytes.take 40, accentLineBytes.drop 40] :=
  ⟨by simp, parseSSEStream_split_invariant _ _ (by simp)⟩

/-- C4 counterexample (negation of the claimed existence): no input stream
ever yields two terminal chunks — each of the two triggers (`[DONE]` and
`finish_reason`) executes `return`, ending the generator, so completion can
never be double-signalled. -/
theorem no_double_completion :
    ¬ ∃ (cs : List (List Nat)) (i j : Nat)
      (hi : i < (parseSSEStream cs).length) (hj : j < (parseSSEStream cs).length),
      i < j ∧ ((parseSSEStream cs).get ⟨i, hi⟩).done = true ∧
        ((parseSSEStream cs).get ⟨j, hj⟩).done = true := by
  rintro ⟨cs, i, j, hi, hj, hij, hdi, hdj⟩
  have h1 := run_done_last cs i hi hdi
  have h2 := run_done_last cs j hj hdj
  omega

/-- C4 amended: the two completion triggers are independent — a stream whose
only frame is `data: [DONE]` and a stream whose only frame carries a
`finish_reason` each produce the terminal chunk — but each trigger returns
from the generator, so no stream ever emits a second terminal chunk. -/
theorem completion_triggers_independent :
    parseSSEStream [doneLineBytes ++ [10]] = [terminalChunk] ∧
    parseSSEStream [finishLineBytes] = [terminalChunk] ∧
    ∀ (cs : List (List Nat)) (i j : Nat)
      (hi : i < (parseSSEStream cs).length) (hj : j < (parseSSEStream cs).length),
      ((parseSSEStream cs).get ⟨i, hi⟩).done = true →
      ((parseSSEStream cs).get ⟨j, hj⟩).done = true → i = j := by
  refine ⟨rfl, rfl, ?_⟩
  intro cs i j hi hj hdi hdj
  have h1 := run_done_last cs i hi hdi
  have h2 := run_done_last cs j hj hdj
  omega

/-- C4 amended witness: the two terminal chunks of the `[DONE]`-only stream
coincide. -/
theorem completion_triggers_independent_witness :
    (0 : Nat) < (parseSSEStream [doneLineBytes ++ [10]]).length ∧ (0 : Nat) = 0 :=
  have hlen : (0 : Nat) < (parseSSEStream [doneLineBytes ++ [10]]).length := by decide
  ⟨hlen,
   completion_triggers_independent.2.2 [doneLineBytes ++ [10]] 0 0
     hlen hlen (by rfl) (by rfl)⟩

/-- C5: a stream whose final frame is `data: [DONE]` — with or without a
trailing newline, and in particular as a dangling un-terminated line left in
the buffer at end of data — produces a sequence ending in exactly one
terminal chunk with nothing after it. -/
theorem parseSSEStream_final_done (cs : List (List Nat)) (front : List Nat)
    (nl : Bool)
    (hsplit : cs.flatten = front ++ doneLineBytes ++ (if nl then [10] else []))
    (hdec : (feedBytes initState front).decoder.bytesNeeded = 0)
    (hbuf : (feedBytes initState front).buffer = []) :
    ∃ pre, parseSSEStream cs = pre ++ [terminalChunk]
      ∧ ∀ c ∈ pre, c.done = false := by
  have hinv : InvOut (feedBytes initState front).os := InvOut_feedBytes _ _ InvOut_init
  rw [parseSSEStream_flatten, hsplit, List.append_assoc, ← feedBytes_append]
  by_cases hh : (feedBytes initState front).os.halted = true
  · have h2 := feedBytes_os_halted (feedBytes initState front)
      (doneLineBytes ++ (if nl then [10] else [])) hh
    rw [flushBuffer_halted _ (by rw [h2]; exact hh), h2]
    exact hinv.2.2 hh
  · have hh0 : (feedBytes initState front).os.halted = false := by
      revert hh; cases (feedBytes initState front).os.halted <;> simp
    obtain ⟨htext, _⟩ := decodeChunk_ascii (doneLineBytes ++ (if nl then [10] else []))
      (feedBytes initState front).decoder hdec (by cases nl <;> decide)
    rw [feedBytes_def, hbuf, htext, feedText_def]
    cases nl
    · have hmap : ((doneLineBytes ++ (if false then [10] else [])).map Char.ofNat)
          = "data: [DONE]".toList := by decide
      rw [hmap, List.nil_append]
      have hlines : linesOf "data: [DONE]".toList = ([], "data: [DONE]".toList) := by decide
      rw [hlines]
      dsimp only
      rw [List.foldl_nil]
      refine ⟨(feedBytes initState front).os.out, ?_, hinv.2.1 hh0⟩
      unfold flushBuffer
      dsimp only
      rw [hh0]
      simp only [Bool.false_eq_true, if_false]
      rw [if_pos (by decide)]
    · have hmap : ((doneLineBytes ++ (if true then [10] else [])).map Char.ofNat)
          = "data: [DONE]".toList ++ ['\n'] := by decide
      rw [hmap, List.nil_append]
      rw [linesOf_noNl_nl _ (by decide)]
      dsimp only
      rw [List.foldl_cons, List.foldl_nil, processLine_doneLine _ hh0]
      refine ⟨(feedBytes initState front).os.out, ?_, hinv.2.1 hh0⟩
      rw [flushBuffer_halted _ rfl]

/-- C5 witness: the dangling `data: [DONE]` with no trailing newline, as the
whole stream. -/
theorem parseSSEStream_final_done_witness :
    ∃ pre, parseSSEStream [doneLineBytes] = pre ++ [terminalChunk]
      ∧ ∀ c ∈ pre, c.done = false :=
  parseSSEStream_final_done [doneLineBytes] [] false (by decide) rfl rfl

/-- C6: a complete data line whose JSON payload carries both a non-empty
`choices[0].delta.content` string and a truthy `choices[0].finish_reason`
makes the decoder emit exactly two further chunks, the content chunk then the
terminal chunk, and terminate: whatever bytes follow (`more`) contribute
nothing. -/
theorem parseSSEStream_content_finish (cs more : List (List Nat))
    (lineBytes : List Nat) (d : DecoderState) (lineChars payload : List Char)
    (p : Json) (s : String)
    (hhalt : (List.foldl feedBytes initState cs).os.halted = false)
    (hbuf : (List.foldl feedBytes initState cs).buffer = [])
    (hdec : decodeChunk (List.foldl feedBytes initState cs).decoder lineBytes
        = (d, lineChars ++ ['\n']))
    (hnl : '\n' ∉ lineChars)
    (htrim : jsTrim lineChars = dataMark ++ payload)
    (hparse : parseJson payload = some p)
    (hcontent : contentOf p = some (Json.str s)) (hs : s ≠ "")
    (hfin : truthyOpt (finishReasonOf p) = true) :
    parseSSEStream (cs ++ [lineBytes] ++ more)
      = (List.foldl feedBytes initState cs).os.out
          ++ [⟨Json.str s, false⟩, terminalChunk] := by
  unfold parseSSEStream
  rw [List.foldl_append, List.foldl_append, List.foldl_cons, List.foldl_nil]
  rw [feedBytes_def, hbuf, hdec]
  dsimp only
  rw [feedText_def]
  dsimp only
  rw [List.nil_append, linesOf_noNl_nl _ hnl]
  dsimp only
  rw [List.foldl_cons, List.foldl_nil,
    processLine_content_finish _ lineChars payload p s hhalt htrim hparse hcontent hs hfin]
  have hos := foldl_feedBytes_os_halted more
    ⟨d, [], ⟨(List.foldl feedBytes initState cs).os.out
      ++ [⟨Json.str s, false⟩, terminalChunk], true⟩⟩ rfl
  rw [flushBuffer_halted _ (by rw [hos]), hos]

/-- C6 witness: the frame carrying both `"Hi"` and `finish_reason: "stop"`, as
the whole stream, yields exactly the content chunk then the terminal chunk. -/
theorem parseSSEStream_content_finish_witness :
    parseSSEStream [asciiBytes bothLine ++ [10]]
      = [⟨Json.str "Hi", false⟩, terminalChunk] := by
  have h := parseSSEStream_content_finish [] [] (asciiBytes bothLine ++ [10])
    ⟨0, 0, 0, 0x80, 0xBF, true⟩ bothLine.toList (bothLine.toList.drop 6)
    bothLineJson "Hi" rfl rfl (by decide) (by decide) (by decide) (by rfl) (by rfl)
    (by decide) (by decide)
  simpa using h

/-- C7: a complete `data: ` line whose payload is not valid JSON contributes
zero chunks and raises no error, and the lines after it are processed exactly
as they would be without it. -/
theorem processLine_skip_malformed (o : OutState) (ls1 ls2 : List (List Char))
    (bad payload : List Char)
    (htrim : jsTrim bad = dataMark ++ payload) (hdone : payload ≠ doneMark)
    (hparse : parseJson payload = none) :
    List.foldl processLine o (ls1 ++ bad :: ls2)
      = List.foldl processLine o (ls1 ++ ls2) := by
  rw [List.foldl_append, List.foldl_append, List.foldl_cons,
    processLine_malformed _ bad payload htrim hdone hparse]

/-- C7 witness: the malformed line `data: \x7boops` before a `[DONE]` line is
skipped, leaving the same processing as without it. -/
theorem processLine_skip_malformed_witness :
    List.foldl processLine ⟨[], false⟩
        (["data: \x7boops".toList, "data: [DONE]".toList])
      = List.foldl processLine ⟨[], false⟩ ["data: [DONE]".toList] := by
  have h := processLine_skip_malformed ⟨[], false⟩ [] ["data: [DONE]".toList]
    "data: \x7boops".toList "\x7boops".toList (by decide) (by decide) rfl
  simpa using h

/-- C10 counterexample: the source yields `delta.content` unchecked, so a
frame whose content is the JSON literal `true` (truthy but not a string)
produces a non-terminal chunk whose content is not a non-empty string. -/
theorem nonString_content_counterexample :
    parseSSEStream [trueContentLineBytes] = [⟨Json.bool true, false⟩] ∧
    ¬ ∃ s : String, Json.bool true = Json.str s := by
  refine ⟨rfl, ?_⟩
  rintro ⟨s, h⟩
  exact Json.noConfusion h

/-- C10 amended: every output sequence has at most one terminal chunk; a
terminal chunk, when present, is the last element; and every non-terminal
chunk carries truthy content (a non-empty string whenever the server sends
the documented string-valued `delta.content`). -/
theorem chunk_invariants (cs : List (List Nat)) :
    (parseSSEStream cs).countP (fun c => c.done) ≤ 1 ∧
    (∀ (i : Nat) (hi : i < (parseSSEStream cs).length),
        ((parseSSEStream cs).get ⟨i, hi⟩).done = true
          → i + 1 = (parseSSEStream cs).length) ∧
    (∀ c ∈ parseSSEStream cs, c.done = false → truthy c.content = true) := by
  refine ⟨?_, run_done_last cs, run_truthy cs⟩
  rcases run_shape cs with hall | ⟨pre, heq, hpre⟩
  · have h0 : (parseSSEStream cs).countP (fun c => c.done) = 0 := by
      rw [List.countP_eq_zero]
      intro a ha
      rw [hall a ha]
      simp
    simp [h0]
  · rw [heq, List.countP_append]
    have h1 : pre.countP (fun c => c.done) = 0 := by
      rw [List.countP_eq_zero]
      intro a ha
      rw [hpre a ha]
      simp
    have h2 : [terminalChunk].countP (fun c => c.done) = 1 := rfl
    rw [h1, h2]

/-- C10 amended witness: the `[DONE]`-only stream has a terminal chunk at
index 0, which is its last position. -/
theorem chunk_invariants_witness :
    (0 : Nat) < (parseSSEStream [doneLineBytes ++ [10]]).length ∧
    0 + 1 = (parseSSEStream [doneLineBytes ++ [10]]).length :=
  ⟨by decide,
   (chunk_invariants [doneLineBytes ++ [10]]).2.1 0 (by decide) rfl⟩

/-! ### Lemmas: the thrown error's fields in terms of the body inspection. -/

/-- Every branch of the status switch forwards the same message, code and
type locals, and every class records the response's own status. -/
theorem throwForStatus_fields (r : Rsp) :
    (throwForStatus r).message = (errorParts r).1 ∧
    (throwForStatus r).code = (errorParts r).2.1 ∧
    (throwForStatus r).type = (errorParts r).2.2.1 ∧
    (throwForStatus r).status = r.status := by
  unfold throwForStatus
  split <;> simp_all

/-- Every class either carries the `details` local (422 and the generic
default) or leaves it `undefined`. -/
theorem throwForStatus_details (r : Rsp) :
    (throwForStatus r).details = (errorParts r).2.2.2
      ∨ (throwForStatus r).details = none := by
  unfold throwForStatus
  split <;> simp

/-- The 422 class carries the `details` local. -/
theorem throwForStatus_details_422 (r : Rsp) (h : r.status = 422) :
    (throwForStatus r).details = (errorParts r).2.2.2 := by
  unfold throwForStatus
  split <;> simp_all

/-- The generic default class (any status outside the seven documented ones)
also carries the `details` local. -/
theorem throwForStatus_details_default (r : Rsp)
    (h401 : r.status ≠ 401) (h402 : r.status ≠ 402) (h403 : r.status ≠ 403)
    (h404 : r.status ≠ 404) (h422 : r.status ≠ 422) (h429 : r.status ≠ 429)
    (h502 : r.status ≠ 502) :
    (throwForStatus r).details = (errorParts r).2.2.2 := by
  unfold throwForStatus
  split <;> simp_all

/-- The body inspection when the `error` field is a non-empty string. -/
theorem errorParts_str (r : Rsp) (body : Json) (s : String)
    (hb : parseJson r.bodyText = some body)
    (he : oget (some body) "error" = some (Json.str s)) (hs : s ≠ "") :
    errorParts r = (Json.str s, none, none, none) := by
  unfold errorParts
  rw [hb]
  dsimp only
  rw [he]
  simp [truthy, hs, jget, lookupLast]

/-- The body inspection when the `error` field is a truthy non-string. -/
theorem errorParts_obj (r : Rsp) (body eo : Json)
    (hb : parseJson r.bodyText = some body)
    (he : oget (some body) "error" = some eo)
    (ht : truthy eo = true) (hno : ∀ s, eo ≠ Json.str s) :
    errorParts r =
      ((match jget eo "message" with
        | some Json.null => Json.str ("BYOK API error (" ++ toString r.status ++ ")")
        | some v => v
        | none => Json.str ("BYOK API error (" ++ toString r.status ++ ")")),
       jget eo "code", jget eo "type", jget eo "details") := by
  unfold errorParts
  rw [hb]
  dsimp only
  rw [he]
  cases eo with
  | str s => exact absurd rfl (hno s)
  | null => simp [truthy] at ht
  | bool b => cases b <;> simp_all [truthy]
  | num n m e => simp_all [truthy]
  | arr xs => simp [ht]
  | obj fs => simp [ht]

/-- The body inspection when the `error` field is absent or falsy: every
local keeps its default. -/
theorem errorParts_falsy (r : Rsp) (body : Json)
    (hb : parseJson r.bodyText = some body)
    (he : oget (some body) "error" = none
      ∨ ∃ eo, oget (some body) "error" = some eo ∧ truthy eo = false) :
    errorParts r =
      (Json.str ("BYOK API error (" ++ toString r.status ++ ")"), none, none, none) := by
  unfold errorParts
  rw [hb]
  dsimp only
  rcases he with he | ⟨eo, he, ht⟩
  · rw [he]
  · rw [he]
    simp [ht]

/-- C2: the status switch is total and deterministic — each of the seven
documented statuses throws its documented class, any other status throws the
generic `ByokError`, and the thrown error's `status` field always equals the
response's exact status code.  The class is a function of the status code
alone. -/
theorem throwForStatus_kind (r : Rsp) :
    (throwForStatus r).status = r.status ∧
    (throwForStatus r).name =
      (if r.status = 401 then "AuthenticationError"
       else if r.status = 402 then "PaymentRequiredError"
       else if r.status = 403 then "ForbiddenError"
       else if r.status = 404 then "NotFoundError"
       else if r.status = 422 then "ValidationError"
       else if r.status = 429 then "RateLimitError"
       else if r.status = 502 then "ProviderError"
       else "ByokError") := by
  unfold throwForStatus
  split <;> simp_all

/-- C3 counterexample: a non-numeric, non-empty `retry-after` header on a 429
response yields `retryAfter = NaN`, not `undefined` as the claim states
(`retryAfter ? parseInt(retryAfter, 10) : undefined` runs `parseInt` on any
truthy header string, and `parseInt("soon", 10)` is `NaN`). -/
theorem retryAfter_nonNumeric_nan :
    (throwForStatus ⟨429, "", [], some "soon"⟩).retryAfter = RetryAfter.nan ∧
    RetryAfter.nan ≠ RetryAfter.undef :=
  ⟨rfl, by decide⟩

/-- C3 amended: on a 429 response the retry hint is `undefined` when the
header is absent or empty, `NaN` when it is non-empty but has no leading
integer for `parseInt`, and the parsed integer otherwise; on every other
status the thrown error carries no retry hint (the field is `undefined`). -/
theorem retryAfter_hint (r : Rsp) :
    (r.status = 429 →
      ((r.retryAfterHeader = none ∨ r.retryAfterHeader = some "") →
          (throwForStatus r).retryAfter = RetryAfter.undef) ∧
      (∀ s, r.retryAfterHeader = some s → s ≠ "" → parseIntTen s = none →
          (throwForStatus r).retryAfter = RetryAfter.nan) ∧
      (∀ s n, r.retryAfterHeader = some s → s ≠ "" → parseIntTen s = some n →
          (throwForStatus r).retryAfter = RetryAfter.val n)) ∧
    (r.status ≠ 429 → (throwForStatus r).retryAfter = RetryAfter.undef) := by
  constructor
  · intro h
    have hra : (throwForStatus r).retryAfter = retryAfterOf r := by
      unfold throwForStatus
      split <;> simp_all
    refine ⟨?_, ?_, ?_⟩
    · rintro (hn | he)
      · simp [hra, retryAfterOf, hn]
      · simp [hra, retryAfterOf, he]
    · intro s hs hne hp; simp [hra, retryAfterOf, hs, hne, hp]
    · intro s n hs hne hp; simp [hra, retryAfterOf, hs, hne, hp]
  · intro hne
    unfold throwForStatus
    split <;> simp_all

/-- C3 witness: status 429 with header `retry-after: 30` yields a hint of 30
seconds (the spec's §8 example scenario). -/
theorem retryAfter_hint_witness :
    (throwForStatus ⟨429, "", [], some "30"⟩).retryAfter = RetryAfter.val 30 :=
  ((retryAfter_hint ⟨429, "", [], some "30"⟩).1 rfl).2.2 "30" 30 rfl
    (by decide) (by decide)

/-- Body `\x7b"error":\x7b\x7d\x7d` (an error object with no message). -/
def errBodyObjEmpty : List Char := "\x7b\"error\":\x7b\x7d\x7d".toList

/-- Body `\x7b"error":""\x7d` (an error field that is the empty string). -/
def errBodyEmptyStr : List Char := "\x7b\"error\":\"\"\x7d".toList

/-- C8 counterexample: the fallback message is `"BYOK API error (<status>)"`,
not the claim's `"API error (<status>)"`; and an `error` field that is the
empty string is falsy, so the message is the fallback rather than that
string. -/
theorem errorMessage_fallback_counterexample :
    (throwForStatus ⟨404, "", errBodyObjEmpty, none⟩).message
        = Json.str "BYOK API error (404)" ∧
    Json.str "BYOK API error (404)" ≠ Json.str "API error (404)" ∧
    (throwForStatus ⟨400, "", errBodyEmptyStr, none⟩).message
        = Json.str "BYOK API error (400)" ∧
    Json.str "BYOK API error (400)" ≠ Json.str "" := by
  refine ⟨rfl, ?_, rfl, ?_⟩ <;> (intro h; injection h with h; exact absurd h (by decide))

/-- C8 amended: for a response whose body parses as JSON — a truthy (hence
non-empty) string `error` field becomes the message with no code, type or
details; a truthy non-string `error` value supplies `code`, `type` (and, for
the two classes that carry it — 422 and the generic default for any status
outside the seven documented ones — `details`) by property access, and the
message comes from its `message` property, falling back nullishly to
`"BYOK API error (<status>)"`; a falsy or absent `error` field (including the
empty string) leaves the fallback message and no code, type or details. -/
theorem errorBody_parsing (r : Rsp) (body : Json)
    (hb : parseJson r.bodyText = some body) :
    (∀ s : String, oget (some body) "error" = some (Json.str s) → s ≠ "" →
        (throwForStatus r).message = Json.str s ∧ (throwForStatus r).code = none ∧
        (throwForStatus r).type = none ∧ (throwForStatus r).details = none) ∧
    (∀ eo, oget (some body) "error" = some eo → truthy eo = true →
        (∀ s, eo ≠ Json.str s) →
        (throwForStatus r).code = jget eo "code" ∧
        (throwForStatus r).type = jget eo "type" ∧
        (r.status = 422 → (throwForStatus r).details = jget eo "details") ∧
        (r.status ≠ 401 → r.status ≠ 402 → r.status ≠ 403 → r.status ≠ 404 →
          r.status ≠ 422 → r.status ≠ 429 → r.status ≠ 502 →
          (throwForStatus r).details = jget eo "details") ∧
        ((jget eo "message" = none ∨ jget eo "message" = some Json.null) →
          (throwForStatus r).message
            = Json.str ("BYOK API error (" ++ toString r.status ++ ")")) ∧
        (∀ v, jget eo "message" = some v → v ≠ Json.null →
          (throwForStatus r).message = v)) ∧
    ((oget (some body) "error" = none
        ∨ ∃ eo, oget (some body) "error" = some eo ∧ truthy eo = false) →
        (throwForStatus r).message
            = Json.str ("BYOK API error (" ++ toString r.status ++ ")") ∧
        (throwForStatus r).code = none ∧ (throwForStatus r).type = none) := by
  obtain ⟨hmsg, hcode, htype, _⟩ := throwForStatus_fields r
  refine ⟨?_, ?_, ?_⟩
  · intro s he hs
    have hep := errorParts_str r body s hb he hs
    have hdet : (throwForStatus r).details = none := by
      rcases throwForStatus_details r with hd | hd
      · rw [hd, hep]
      · exact hd
    exact ⟨by rw [hmsg, hep], by rw [hcode, hep], by rw [htype, hep], hdet⟩
  · intro eo he ht hno
    have hep := errorParts_obj r body eo hb he ht hno
    refine ⟨by rw [hcode, hep], by rw [htype, hep],
      fun h422 => by rw [throwForStatus_details_422 r h422, hep],
      fun h401 h402 h403 h404 h422 h429 h502 => by
        rw [throwForStatus_details_default r h401 h402 h403 h404 h422 h429 h502, hep],
      ?_, ?_⟩
    · rintro (hm | hm) <;> rw [hmsg, hep] <;> simp [hm]
    · intro v hm hv
      rw [hmsg, hep, hm]
      cases v with
      | null => exact absurd rfl hv
      | bool b => rfl
      | num n m e => rfl
      | str s => rfl
      | arr xs => rfl
      | obj fs => rfl
  · intro he
    have hep := errorParts_falsy r body hb he
    exact ⟨by rw [hmsg, hep], by rw [hcode, hep], by rw [htype, hep]⟩

/-- C8 witness: spec §8's example — status 429 with body
`\x7b"error":\x7b"message":"slow down","code":"quota"\x7d\x7d` yields message
`"slow down"` and code `"quota"`. -/
theorem errorBody_parsing_witness :
    (throwForStatus ⟨429, "",
        "\x7b\"error\":\x7b\"message\":\"slow down\",\"code\":\"quota\"\x7d\x7d".toList,
        none⟩).message = Json.str "slow down" :=
  ((errorBody_parsing
    ⟨429, "", "\x7b\"error\":\x7b\"message\":\"slow down\",\"code\":\"quota\"\x7d\x7d".toList,
      none⟩
    (Json.obj [("error",
      Json.obj [("message", Json.str "slow down"), ("code", Json.str "quota")])])
    rfl).2.1 (Json.obj [("message", Json.str "slow down"), ("code", Json.str "quota")])
    rfl rfl (fun s h => by injection h)).2.2.2.2.2 (Json.str "slow down") rfl
    (fun h => by injection h)

end Byok
